import Mathlib

set_option maxHeartbeats 1000000

namespace Planner

/-- A task inside a block, `{ id, text, done }` in the source. The random
string ids produced by `uid` are modelled as naturals. -/
structure Task where
  id : Nat
  text : String
  done : Bool
deriving DecidableEq, Repr

/-- A time block `{ start, span, tasks }` of a day partition. Minutes are
modelled as integers, exactly as JavaScript numbers behave on this code's
integer-valued inputs. -/
structure Block where
  start : Int
  span : Int
  tasks : List Task
deriving DecidableEq, Repr

/-- `MINS_IN_DAY` from the source. -/
def MINS_IN_DAY : Int := 1440

/-- `defaultDay`: 24 hourly blocks `{start: h*60, span: 60, tasks: []}`. -/
def defaultDay : List Block :=
  (List.range 24).map fun h => { start := (h : Int) * 60, span := 60, tasks := [] }

/-- The weekly schedule: one partition per day, in the order of `DAYS`
(`Sunday` .. `Saturday`), so a day is addressed by its index `0..6`. -/
def defaultSchedule : List (List Block) := List.replicate 7 defaultDay

/-- `mergeSlots(i)` on one day's slots: no-op when `i` is the last index
(`i >= slots.length - 1`) or the two blocks are not adjacent; otherwise the
two blocks are replaced by their union carrying both task lists. -/
def mergeSlots (slots : List Block) (i : Nat) : List Block :=
  match slots.get? i, slots.get? (i + 1) with
  | some a, some b =>
    if a.start + a.span ≠ b.start then slots
    else slots.take i ++
      { start := a.start, span := a.span + b.span, tasks := a.tasks ++ b.tasks } :: slots.drop (i + 2)
  | _, _ => slots

/-- `unmergeSlot(i)`: splits off a 60-minute head keeping all tasks, the
remainder gets an empty task list; no-op when the block is missing or its
span is at most 60. -/
def unmergeSlot (slots : List Block) (i : Nat) : List Block :=
  match slots.get? i with
  | some s =>
    if s.span ≤ 60 then slots
    else slots.take i ++
      { start := s.start, span := 60, tasks := s.tasks } ::
      { start := s.start + 60, span := s.span - 60, tasks := [] } :: slots.drop (i + 1)
  | none => slots

/-- Helper shared by the task mutators: rewrite the task list of block `i`
(`next[i] = { ...next[i], tasks: f(next[i].tasks) }`). -/
def updateBlockTasks (slots : List Block) (i : Nat) (f : List Task → List Task) : List Block :=
  match slots.get? i with
  | some blk => slots.set i { blk with tasks := f blk.tasks }
  | none => slots

/-- `addTask(i)`: appends a new task to block `i` (the prompt text and
fresh id are the task `t`). -/
def addTask (slots : List Block) (i : Nat) (t : Task) : List Block :=
  updateBlockTasks slots i (fun ts => ts ++ [t])

/-- A patch `{ text?, done? }` as passed to `updateTask`. -/
structure TaskPatch where
  text : Option String
  done : Option Bool

/-- `{ ...t, ...patch }`. -/
def patchTask (t : Task) (p : TaskPatch) : Task :=
  { t with text := p.text.getD t.text, done := p.done.getD t.done }

/-- `updateTask(i, tid, patch)`. -/
def updateTask (slots : List Block) (i : Nat) (tid : Nat) (p : TaskPatch) : List Block :=
  updateBlockTasks slots i (List.map fun t => if t.id = tid then patchTask t p else t)

/-- `removeTask(i, tid)`. -/
def removeTask (slots : List Block) (i : Nat) (tid : Nat) : List Block :=
  updateBlockTasks slots i (List.filter fun t => decide (t.id ≠ tid))

/-- The inner `while (j < slots.length)` loop of `replaceRangeWithSingleBlock`,
started at the first overlapping block: walks forward until a block whose end
reaches `e = start + span`, recording the right remainder if that block
overhangs.  Returns (blocks after the consumed run, rightRemainderSpan,
rightRemainderTasks). -/
def scanToEnd (e : Int) : List Block → List Block × Int × List Task
  | [] => ([], 0, [])
  | cur :: rest =>
    let curEnd := cur.start + cur.span
    if curEnd ≥ e then
      if curEnd - e > 0 then (rest, curEnd - e, cur.tasks) else (rest, 0, [])
    else scanToEnd e rest

/-- The outer `while (i < slots.length)` loop of `replaceRangeWithSingleBlock`:
copies non-overlapping blocks, and at the first overlapping block emits the
optional left remainder, the new block, the optional right remainder and the
untouched tail, then stops. -/
def spliceGo (start span : Int) (newTasks : List Task) : List Block → List Block
  | [] => []
  | s :: rest =>
    if s.start + s.span ≤ start ∨ s.start ≥ start + span then
      s :: spliceGo start span newTasks rest
    else
      let scanned := scanToEnd (start + span) (s :: rest)
      (if s.start < start then [{ start := s.start, span := start - s.start, tasks := s.tasks }] else [])
        ++ { start := start, span := span, tasks := newTasks } ::
          ((if scanned.2.1 > 0 then
              [{ start := start + span, span := scanned.2.1, tasks := scanned.2.2 }]
            else []) ++ scanned.1)

/-- `replaceRangeWithSingleBlock(slots, start, span, tasksForNewBlock)`. -/
def replaceRangeWithSingleBlock (slots : List Block) (start span : Int)
    (tasksForNewBlock : List Task) : List Block :=
  spliceGo start span tasksForNewBlock slots

/-- `makeCopies` from `applyBlockToAllDays`: one fresh id per copied task.
The values drawn from `Math.random().toString(36).slice(2, 9)` are modelled
by the supply `σ`, indexed by a call counter that the engine threads. -/
def makeCopies (σ : Nat → Nat) : Nat → List Task → List Task × Nat
  | c, [] => ([], c)
  | c, t :: ts =>
    let r := makeCopies σ (c + 1) ts
    ({ t with id := σ c } :: r.1, r.2)

/-- The `mode === "append"` map inside `applyBlockToAllDays`: every block whose
`start` and `span` equal the target range gets fresh copies of the source
tasks appended. -/
def appendToMatching (σ : Nat → Nat) (start span : Int) (tasks : List Task) :
    Nat → List Block → List Block × Nat
  | c, [] => ([], c)
  | c, blk :: rest =>
    if blk.start = start ∧ blk.span = span then
      let cp := makeCopies σ c tasks
      let r := appendToMatching σ start span tasks cp.2 rest
      ({ blk with tasks := blk.tasks ++ cp.1 } :: r.1, r.2)
    else
      let r := appendToMatching σ start span tasks c rest
      (blk :: r.1, r.2)

/-- The `for (let d = 0; d < DAYS.length; d++)` loop of `applyBlockToAllDays`,
every day being recomputed from the previous schedule `prev`. -/
def applyAllGo (σ : Nat → Nat) (start span : Int) (tasks : List Task) (mode : String) :
    Nat → List (List Block) → List (List Block)
  | _, [] => []
  | c, slots :: restDays =>
    let ini := if mode = "replace" then makeCopies σ c tasks else ([], c)
    let reshaped := replaceRangeWithSingleBlock slots start span ini.1
    let stepped :=
      if mode = "append" then appendToMatching σ start span tasks ini.2 reshaped
      else (reshaped, ini.2)
    stepped.1 :: applyAllGo σ start span tasks mode stepped.2 restDays

/-- `applyBlockToAllDays(blockIndex, mode)`: reads the source block from the
selected day and replays its range (and, depending on the mode, its tasks)
onto every day; returns the schedule unchanged when the block is missing. -/
def applyBlockToAllDays (σ : Nat → Nat) (sched : List (List Block))
    (selectedDay blockIndex : Nat) (mode : String) : List (List Block) :=
  match (sched.getD selectedDay []).get? blockIndex with
  | some src => applyAllGo σ src.start src.span src.tasks mode 0 sched
  | none => sched

/-- The `useState` schedule initializer: `JSON.parse` is the external platform
parser, passed in as `parse`; an exception it would throw is an
`Except.error`.  `if (saved)` is falsy both for a missing value and for the
empty string. -/
def loadSchedule (parse : String → Except String (List (List Block)))
    (saved : Option String) : Except String (List (List Block)) :=
  match saved with
  | some s => if s = "" then Except.ok defaultSchedule else parse s
  | none => Except.ok defaultSchedule

/-- Numeric value of a list of decimal digit characters, most significant
first, as `parseInt` computes it on an all-digit string. -/
def digitsVal (l : List Char) : Int :=
  l.foldl (fun acc c => acc * 10 + ((c.toNat - 48 : Nat) : Int)) 0

/-- `parseInt(str, 10)` restricted to the strings this code feeds it (digits
and colons, or empty): the value of the longest digit prefix, `none` (NaN)
when there is none. -/
def jsParseInt (l : List Char) : Option Int :=
  let ds := l.takeWhile Char.isDigit
  if ds.isEmpty then none else some (digitsVal ds)

/-- The character-replacing regex of `parseTimeToMinutes`: every character
that is neither a digit nor a colon becomes a space. -/
def keepDigitColon (c : Char) : Char := if c.isDigit ∨ c = ':' then c else ' '

/-- The whitespace-run collapse of `parseTimeToMinutes`: runs of spaces
become a single space. -/
def collapseSpaces : List Char → List Char
  | [] => []
  | [c] => [c]
  | c :: d :: rest =>
    if c = ' ' ∧ d = ' ' then collapseSpaces (d :: rest)
    else c :: collapseSpaces (d :: rest)

/-- Trailing `.trim()` on the cleaned character list (only plain spaces can
remain as whitespace at that point). -/
def trimSpaces (l : List Char) : List Char :=
  ((l.dropWhile (· = ' ')).reverse.dropWhile (· = ' ')).reverse

/-- The cleaned character list of `parseTimeToMinutes`: replace every
non-digit non-colon character by a space, collapse space runs, trim. -/
def cleanedChars (l : List Char) : List Char :=
  trimSpaces (collapseSpaces (l.map keepDigitColon))

/-- `.trim()` at character level.  (JavaScript trims Unicode whitespace; the
relevant inputs only carry whitespace covered by `Char.isWhitespace`.) -/
def trimChars (l : List Char) : List Char :=
  ((l.dropWhile Char.isWhitespace).reverse.dropWhile Char.isWhitespace).reverse

/-- `str.endsWith` on a two-character suffix `xy`. -/
def endsWith2 (x y : Char) (l : List Char) : Bool :=
  match l.reverse with
  | b :: a :: _ => decide (a = x) && decide (b = y)
  | _ => false

/-- Dropping a matched two-character suffix (the `replace` of the `am` or
`pm` marker). -/
def dropLast2 (l : List Char) : List Char :=
  (l.reverse.drop 2).reverse

/-- The regex test for one or two digits, a colon, one or two digits,
together with the subsequent split and `parseInt` on both sides:
`some (h, m)` exactly when the pattern matches the whole list. -/
def matchHColonM (l : List Char) : Option (Int × Int) :=
  let ds := l.takeWhile Char.isDigit
  let rest := l.dropWhile Char.isDigit
  match rest with
  | ':' :: ms =>
    if 1 ≤ ds.length ∧ ds.length ≤ 2 ∧ 1 ≤ ms.length ∧ ms.length ≤ 2 ∧ ms.all Char.isDigit
    then some (digitsVal ds, digitsVal ms)
    else none
  | _ => none

/-- `str.split(" ")` on the cleaned list (runs of spaces were already
collapsed; JavaScript yields one empty part on the empty string). -/
def splitSpacesAux : List Char → List Char → List (List Char)
  | acc, [] => [acc.reverse]
  | acc, c :: rest =>
    if c = ' ' then acc.reverse :: splitSpacesAux [] rest
    else splitSpacesAux (c :: acc) rest

/-- See `splitSpacesAux`. -/
def splitSpaces (l : List Char) : List (List Char) := splitSpacesAux [] l

/-- The `(h, m)` pair `parseTimeToMinutes` extracts from the cleaned string,
before the AM/PM adjustment and the clamping; `none` models NaN. -/
def extractHM (cl : List Char) : Option (Int × Int) :=
  match matchHColonM cl with
  | some hm => some hm
  | none =>
    if cl.all Char.isDigit ∧ 3 ≤ cl.length ∧ cl.length ≤ 4 then
      some (digitsVal cl / 100, digitsVal cl % 100)
    else
      match splitSpaces cl with
      | [p] =>
        match jsParseInt p with
        | some h => some (h, 0)
        | none => none
      | [p, q] =>
        match jsParseInt p, jsParseInt q with
        | some h, some m => some (h, m)
        | _, _ => none
      | _ => some (0, 0)

/-- `parseTimeToMinutes(s)`: `none` models the NaN result.  The character
pipeline (trim, lowercase, am/pm suffix stripping) is carried out on the
character list, mirroring the string operations of the source. -/
def parseTimeToMinutes (s : String) : Option Int :=
  if s = "" then none
  else
    let cs0 := (trimChars s.toList).map Char.toLower
    let isAM := endsWith2 'a' 'm' cs0
    let csA := if endsWith2 'a' 'm' cs0 then trimChars (dropLast2 cs0) else cs0
    let isPM := endsWith2 'p' 'm' csA
    let csB := if endsWith2 'p' 'm' csA then trimChars (dropLast2 csA) else csA
    match extractHM (cleanedChars csB) with
    | none => none
    | some (h0, m0) =>
      let h1 := if isPM ∧ h0 < 12 then h0 + 12 else h0
      let h2 := if isAM ∧ h1 = 12 then 0 else h1
      let h3 := max 0 (min 23 h2)
      let m1 := max 0 (min 59 m0)
      some (h3 * 60 + m1)

/-- The range separator split of `addCustomBlock` (a regex alternation of
`-`, en dash, `~`, and the word `to`, case-insensitive), scanning left to
right. -/
def splitSepsAux : List Char → List Char → List String
  | acc, [] => [String.mk acc.reverse]
  | acc, c :: rest =>
    if c = '-' ∨ c = '–' ∨ c = '~' then String.mk acc.reverse :: splitSepsAux [] rest
    else
      match rest with
      | o :: rest2 =>
        if (c = 't' ∨ c = 'T') ∧ (o = 'o' ∨ o = 'O') then
          String.mk acc.reverse :: splitSepsAux [] rest2
        else splitSepsAux (c :: acc) (o :: rest2)
      | [] => [String.mk (c :: acc).reverse]

/-- See `splitSepsAux`. -/
def splitSeps (raw : String) : List String := splitSepsAux [] raw.toList

/-- `addCustomBlock` applied to one day's slots with the prompt answer `raw`:
reject when the text has no separator, when either side parses to NaN, or
when the end is not after the start; otherwise clamp and splice. -/
def addCustomBlock (slots : List Block) (raw : String) : List Block :=
  if raw = "" then slots
  else
    match splitSeps raw with
    | p0 :: p1 :: _ =>
      match parseTimeToMinutes p0, parseTimeToMinutes p1 with
      | some startMin, some endMin =>
        if endMin ≤ startMin then slots
        else
          let s := max 0 (min (MINS_IN_DAY - 1) startMin)
          let e := max 1 (min MINS_IN_DAY endMin)
          replaceRangeWithSingleBlock slots s (e - s) []
      | _, _ => slots
    | _ => slots

/-- `resetSelectedDay` once confirmed: the day becomes `defaultDay()`. -/
def resetDay (_slots : List Block) : List Block := defaultDay

/-- `covers(partition)` between two instants: the blocks start at `a`, are
contiguous with positive spans, and end exactly at `b`.  This is the
executable validity check of the Time Partition. -/
def coversFrom (a b : Int) : List Block → Bool
  | [] => decide (a = b)
  | blk :: rest =>
    decide (blk.start = a) && decide (1 ≤ blk.span) && coversFrom (a + blk.span) b rest

/-- The end instant `start + span` of a block. -/
def blockEnd (blk : Block) : Int := blk.start + blk.span

/-- Invariant 1: blocks sorted ascending by `start`. -/
def sortedStarts (slots : List Block) : Prop :=
  List.Chain' (fun x y => x.start < y.start) slots

/-- Invariant 2: consecutive blocks are contiguous. -/
def contiguousBlocks (slots : List Block) : Prop :=
  List.Chain' (fun x y => x.start + x.span = y.start) slots

/-- Invariant 3: the sequence covers exactly `[0, 1440)`. -/
def coversWholeDay (slots : List Block) : Prop :=
  slots.head?.map Block.start = some 0 ∧ slots.getLast?.map blockEnd = some 1440

/-- Invariant 4: every block has `span ≥ 1`. -/
def positiveSpans (slots : List Block) : Prop :=
  ∀ blk ∈ slots, 1 ≤ blk.span

/-- The four partition invariants of the spec. -/
def Invariants (slots : List Block) : Prop :=
  sortedStarts slots ∧ contiguousBlocks slots ∧ coversWholeDay slots ∧ positiveSpans slots

/-- Rewrite one day of the weekly schedule, as `setDaySlots` does for the
selected day. -/
def updateDay (sched : List (List Block)) (d : Nat) (f : List Block → List Block) :
    List (List Block) :=
  match sched.get? d with
  | some slots => sched.set d (f slots)
  | none => sched

/-- One discrete user action on the engine, `d` being the selected day.  The
splice operation carries the range restriction of the claim
(`0 ≤ start`, `span ≥ 1`, `start + span ≤ 1440`); out-of-range splices are
not part of the quantified operation set and are skipped. -/
inductive Op where
  | merge (d i : Nat)
  | unmerge (d i : Nat)
  | splice (d : Nat) (start span : Int) (tasks : List Task)
  | applyAll (d i : Nat) (mode : String)
  | add (d i : Nat) (t : Task)
  | upd (d i : Nat) (tid : Nat) (p : TaskPatch)
  | rem (d i : Nat) (tid : Nat)
  | reset (d : Nat)

/-- Execute one operation on the weekly schedule; `σ` supplies the fresh-id
values drawn by `makeCopies`. -/
def execOp (σ : Nat → Nat) (sched : List (List Block)) : Op → List (List Block)
  | .merge d i => updateDay sched d (fun slots => mergeSlots slots i)
  | .unmerge d i => updateDay sched d (fun slots => unmergeSlot slots i)
  | .splice d start span tasks =>
    if 0 ≤ start ∧ 1 ≤ span ∧ start + span ≤ 1440 then
      updateDay sched d (fun slots => replaceRangeWithSingleBlock slots start span tasks)
    else sched
  | .applyAll d i mode => applyBlockToAllDays σ sched d i mode
  | .add d i t => updateDay sched d (fun slots => addTask slots i t)
  | .upd d i tid p => updateDay sched d (fun slots => updateTask slots i tid p)
  | .rem d i tid => updateDay sched d (fun slots => removeTask slots i tid)
  | .reset d => updateDay sched d resetDay

/-- The schedule after a sequence of operations starting from the default
week. -/
def runOps (σ : Nat → Nat) (ops : List Op) : List (List Block) :=
  ops.foldl (execOp σ) defaultSchedule

/-- The shape of a splice result: the blocks strictly before the overlapped
run and strictly after it are copied unchanged, and the run itself (a
nonempty set of blocks each overlapping the target range) is replaced by
one to three blocks among which the new block. -/
def SpliceDecomp (slots : List Block) (start span : Int) (tasks : List Task)
    (r : List Block) : Prop :=
  ∃ pre run post mid,
    slots = pre ++ run ++ post ∧
    r = pre ++ mid ++ post ∧
    (∀ blk ∈ pre, blk.start + blk.span ≤ start) ∧
    (∀ blk ∈ post, start + span ≤ blk.start) ∧
    (∀ blk ∈ run, blk.start < start + span ∧ start < blk.start + blk.span) ∧
    run ≠ [] ∧
    1 ≤ mid.length ∧ mid.length ≤ 3 ∧ Block.mk start span tasks ∈ mid

/-- Three adjacent one-hour blocks, the shape used by the merge/split
example of the spec. -/
def threeHourly : List Block :=
  [Block.mk 0 60 [], Block.mk 60 60 [], Block.mk 120 60 []]

/-- Concrete week exercising cross-day propagation: Monday has `"gym"` on
the block `[90, 150)` and Tuesday already has `"call mom"` on a block with
exactly that range. -/
def mondayFI : List Block :=
  [Block.mk 0 90 [], Block.mk 90 60 [Task.mk 1 "gym" false], Block.mk 150 1290 []]

/-- See `mondayFI`. -/
def tuesdayFI : List Block :=
  [Block.mk 0 90 [], Block.mk 90 60 [Task.mk 2 "call mom" false], Block.mk 150 1290 []]

/-- See `mondayFI`; day order is Sunday, Monday, Tuesday, ... -/
def weekFI : List (List Block) :=
  [defaultDay, mondayFI, tuesdayFI, defaultDay, defaultDay, defaultDay, defaultDay]

/-- A model of `JSON.parse` that rejects the concrete corrupted snapshot
`"not json"` with a syntax error, as the platform parser does. -/
def corruptParse : String → Except String (List (List Block)) :=
  fun s =>
    if s = "not json" then Except.error "SyntaxError: Unexpected token o in JSON"
    else Except.ok defaultSchedule

/-- A single-block week with one task, used to exercise replace-mode
propagation on concrete data. -/
def weekOneBlock : List (List Block) :=
  [Block.mk 0 1440 [Task.mk 5 "gym" false]] ::
    List.replicate 6 [Block.mk 0 1440 []]

theorem coversFrom_nil {a b : Int} : coversFrom a b [] = true ↔ a = b := by
  simp [coversFrom]

theorem coversFrom_cons {a b : Int} {blk : Block} {rest : List Block} :
    coversFrom a b (blk :: rest) = true ↔
      blk.start = a ∧ 1 ≤ blk.span ∧ coversFrom (a + blk.span) b rest = true := by
  simp [coversFrom, Bool.and_eq_true, decide_eq_true_iff, and_assoc]

theorem covers_le {b : Int} :
    ∀ {L : List Block} {a : Int}, coversFrom a b L = true → a ≤ b := by
  intro L
  induction L with
  | nil => intro a h; rw [coversFrom_nil] at h; omega
  | cons x rest ih =>
    intro a h
    rw [coversFrom_cons] at h
    have := ih h.2.2
    omega

theorem covers_mem {b : Int} :
    ∀ {L : List Block} {a : Int}, coversFrom a b L = true →
      ∀ blk ∈ L, a ≤ blk.start ∧ 1 ≤ blk.span ∧ blk.start + blk.span ≤ b := by
  intro L
  induction L with
  | nil => intro a _ blk h; simp at h
  | cons x rest ih =>
    intro a hc blk hm
    rw [coversFrom_cons] at hc
    obtain ⟨hx, hspan, hrest⟩ := hc
    rcases List.mem_cons.mp hm with hm | hm
    · subst hm
      have := covers_le hrest
      omega
    · have := ih hrest blk hm
      omega

theorem coversFrom_append {b : Int} :
    ∀ {L1 L2 : List Block} {a : Int},
      coversFrom a b (L1 ++ L2) = true ↔
        ∃ c, coversFrom a c L1 = true ∧ coversFrom c b L2 = true := by
  intro L1
  induction L1 with
  | nil =>
    intro L2 a
    constructor
    · intro h; exact ⟨a, coversFrom_nil.mpr rfl, h⟩
    · rintro ⟨c, hc1, hc2⟩
      have : a = c := coversFrom_nil.mp hc1
      simpa [this] using hc2
  | cons x rest ih =>
    intro L2 a
    constructor
    · intro h
      rw [List.cons_append, coversFrom_cons] at h
      obtain ⟨hx, hs, h⟩ := h
      obtain ⟨c, hc1, hc2⟩ := ih.mp h
      exact ⟨c, coversFrom_cons.mpr ⟨hx, hs, hc1⟩, hc2⟩
    · rintro ⟨c, hc1, hc2⟩
      rw [coversFrom_cons] at hc1
      rw [List.cons_append, coversFrom_cons]
      exact ⟨hc1.1, hc1.2.1, ih.mpr ⟨c, hc1.2.2, hc2⟩⟩

theorem covers_sorted {b : Int} :
    ∀ {L : List Block} {a : Int}, coversFrom a b L = true → sortedStarts L := by
  intro L
  induction L with
  | nil => intro a _; exact List.chain'_nil
  | cons x rest ih =>
    intro a h
    rw [coversFrom_cons] at h
    obtain ⟨hx, hs, hrest⟩ := h
    cases rest with
    | nil => exact List.chain'_singleton x
    | cons y rest2 =>
      have hy := (coversFrom_cons.mp hrest).1
      refine List.chain'_cons.mpr ⟨?_, ih hrest⟩
      omega
theorem covers_contiguous {b : Int} :
    ∀ {L : List Block} {a : Int}, coversFrom a b L = true → contiguousBlocks L := by
  intro L
  induction L with
  | nil => intro a _; exact List.chain'_nil
  | cons x rest ih =>
    intro a h
    rw [coversFrom_cons] at h
    obtain ⟨hx, hs, hrest⟩ := h
    cases rest with
    | nil => exact List.chain'_singleton x
    | cons y rest2 =>
      have hy := (coversFrom_cons.mp hrest).1
      refine List.chain'_cons.mpr ⟨by omega, ih hrest⟩

theorem covers_last {b : Int} :
    ∀ {L : List Block} {a : Int}, L ≠ [] → coversFrom a b L = true →
      L.getLast?.map blockEnd = some b := by
  intro L
  induction L with
  | nil => intro a h; exact absurd rfl h
  | cons x rest ih =>
    intro a _ h
    rw [coversFrom_cons] at h
    obtain ⟨hx, hs, hrest⟩ := h
    cases rest with
    | nil =>
      have hb : a + x.span = b := coversFrom_nil.mp hrest
      have : blockEnd x = b := by unfold blockEnd; omega
      simp [this]
    | cons y rest2 =>
      rw [List.getLast?_cons_cons]
      exact ih (by simp) hrest

theorem covers_of_parts :
    ∀ {L : List Block} {a b : Int}, contiguousBlocks L → positiveSpans L →
      L.head?.map Block.start = some a → L.getLast?.map blockEnd = some b →
      coversFrom a b L = true := by
  intro L
  induction L with
  | nil => intro a b _ _ hh _; simp at hh
  | cons x rest ih =>
    intro a b hc hp hh hl
    have hxa : x.start = a := by simpa using hh
    have hxs : 1 ≤ x.span := hp x (List.mem_cons_self _ _)
    cases rest with
    | nil =>
      have hbe : blockEnd x = b := by simpa using hl
      rw [coversFrom_cons]
      refine ⟨hxa, hxs, coversFrom_nil.mpr ?_⟩
      unfold blockEnd at hbe
      omega
    | cons y rest2 =>
      have hc' := List.chain'_cons.mp hc
      have hrest : coversFrom y.start b (y :: rest2) = true := by
        refine ih hc'.2 ?_ (by simp) ?_
        · intro z hz; exact hp z (List.mem_cons_of_mem _ hz)
        · rw [List.getLast?_cons_cons] at hl; exact hl
      rw [coversFrom_cons]
      refine ⟨hxa, hxs, ?_⟩
      have hstep : a + x.span = y.start := by
        have := hc'.1
        omega
      rw [hstep]
      exact hrest

theorem invariants_iff {L : List Block} :
    Invariants L ↔ coversFrom 0 1440 L = true := by
  constructor
  · rintro ⟨hs, hc, hw, hp⟩
    exact covers_of_parts hc hp hw.1 hw.2
  · intro h
    have hne : L ≠ [] := by
      intro he
      subst he
      rw [coversFrom_nil] at h
      omega
    refine ⟨covers_sorted h, covers_contiguous h, ⟨?_, covers_last hne h⟩,
      fun blk hm => (covers_mem h blk hm).2.1⟩
    cases L with
    | nil => exact absurd rfl hne
    | cons x rest =>
      have := (coversFrom_cons.mp h).1
      simpa using this

theorem scanToEnd_cons (e : Int) (cur : Block) (rest : List Block) :
    scanToEnd e (cur :: rest) =
      if cur.start + cur.span ≥ e then
        if cur.start + cur.span - e > 0 then (rest, cur.start + cur.span - e, cur.tasks)
        else (rest, 0, [])
      else scanToEnd e rest := rfl

theorem spliceGo_cons (start span : Int) (newTasks : List Task) (s : Block) (rest : List Block) :
    spliceGo start span newTasks (s :: rest) =
      if s.start + s.span ≤ start ∨ s.start ≥ start + span then
        s :: spliceGo start span newTasks rest
      else
        (if s.start < start then [Block.mk s.start (start - s.start) s.tasks] else [])
          ++ Block.mk start span newTasks ::
            ((if (scanToEnd (start + span) (s :: rest)).2.1 > 0 then
                [Block.mk (start + span) (scanToEnd (start + span) (s :: rest)).2.1
                  (scanToEnd (start + span) (s :: rest)).2.2]
              else []) ++ (scanToEnd (start + span) (s :: rest)).1) := rfl

theorem scanToEnd_spec {b e : Int} :
    ∀ {L : List Block} {a : Int}, coversFrom a b L = true → a < e → e ≤ b →
      ∃ consumed m after rSpan rTasks,
        scanToEnd e L = (after, rSpan, rTasks) ∧
        L = consumed ++ m :: after ∧
        (∀ blk ∈ consumed, blk.start + blk.span < e) ∧
        m.start < e ∧ e ≤ m.start + m.span ∧
        ((0 < rSpan ∧ rSpan = m.start + m.span - e ∧ rTasks = m.tasks ∧ e < m.start + m.span) ∨
          (rSpan = 0 ∧ rTasks = [] ∧ m.start + m.span = e)) ∧
        coversFrom e b ((if 0 < rSpan then [Block.mk e rSpan rTasks] else []) ++ after) = true := by
  intro L
  induction L with
  | nil =>
    intro a h ha hb
    rw [coversFrom_nil] at h
    omega
  | cons cur rest ih =>
    intro a h ha hb
    rw [coversFrom_cons] at h
    obtain ⟨hcs, hcp, hrest⟩ := h
    rw [scanToEnd_cons]
    by_cases hend : cur.start + cur.span ≥ e
    · rw [if_pos hend]
      by_cases hover : cur.start + cur.span - e > 0
      · rw [if_pos hover]
        refine ⟨[], cur, rest, _, _, rfl, by simp, by simp, by omega, by omega, ?_, ?_⟩
        · left; exact ⟨by omega, rfl, rfl, by omega⟩
        · rw [if_pos (by omega : (0:Int) < cur.start + cur.span - e)]
          rw [List.cons_append, coversFrom_cons]
          refine ⟨rfl, ?_, ?_⟩
          · show (1:Int) ≤ cur.start + cur.span - e
            omega
          · show coversFrom (e + (cur.start + cur.span - e)) b rest = true
            have hrw : e + (cur.start + cur.span - e) = a + cur.span := by omega
            rw [hrw]
            exact hrest
      · rw [if_neg hover]
        refine ⟨[], cur, rest, _, _, rfl, by simp, by simp, by omega, by omega, ?_, ?_⟩
        · right; exact ⟨rfl, rfl, by omega⟩
        · rw [if_neg (by omega : ¬ ((0:Int) < 0))]
          simp only [List.nil_append]
          have hrw : e = a + cur.span := by omega
          rw [hrw]
          exact hrest
    · rw [if_neg hend]
      obtain ⟨consumed, m, after, rSpan, rTasks, h1, h2, h3, h4, h5, h6, h7⟩ :=
        ih hrest (by omega) hb
      refine ⟨cur :: consumed, m, after, rSpan, rTasks, h1,
        by rw [List.cons_append, ← h2], ?_, h4, h5, h6, h7⟩
      intro blk hm
      rcases List.mem_cons.mp hm with hm | hm
      · subst hm; omega
      · exact h3 blk hm

theorem scanToEnd_right {b e : Int} :
    ∀ {L : List Block} {a : Int}, coversFrom a b L = true →
      ∀ m ∈ L, m.start < e → e < m.start + m.span →
      ∃ after, scanToEnd e L = (after, m.start + m.span - e, m.tasks) := by
  intro L
  induction L with
  | nil => intro a _ m hm; simp at hm
  | cons cur rest ih =>
    intro a h m hm hms hme
    rw [coversFrom_cons] at h
    obtain ⟨hcs, hcp, hrest⟩ := h
    rw [scanToEnd_cons]
    rcases List.mem_cons.mp hm with he | hmem
    · subst he
      rw [if_pos (by omega), if_pos (by omega)]
      exact ⟨rest, rfl⟩
    · have hmm := covers_mem hrest m hmem
      by_cases hend : cur.start + cur.span ≥ e
      · exfalso; omega
      · rw [if_neg hend]
        exact ih hrest m hmem hms hme

theorem spliceGo_covers {b start span : Int} {tasks : List Task} :
    ∀ {L : List Block} {a : Int}, coversFrom a b L = true →
      a ≤ start → 1 ≤ span → start + span ≤ b →
      coversFrom a b (spliceGo start span tasks L) = true := by
  intro L
  induction L with
  | nil => intro a h _ _ _; exact h
  | cons s rest ih =>
    intro a h ha hsp hb
    have h' := h
    rw [coversFrom_cons] at h
    obtain ⟨hss, hsps, hrest⟩ := h
    rw [spliceGo_cons]
    by_cases hc : s.start + s.span ≤ start ∨ s.start ≥ start + span
    · rw [if_pos hc]
      have hskip : s.start + s.span ≤ start := by
        rcases hc with hc | hc
        · exact hc
        · omega
      rw [coversFrom_cons]
      exact ⟨hss, hsps, ih hrest (by omega) hsp hb⟩
    · rw [if_neg hc]
      push_neg at hc
      obtain ⟨consumed, m, after, rSpan, rTasks, h1, h2, h3, h4, h5, h6, h7⟩ :=
        scanToEnd_spec h' (by omega) hb
      rw [h1]
      have hmid : coversFrom start b
          (Block.mk start span tasks ::
            ((if rSpan > 0 then [Block.mk (start + span) rSpan rTasks] else []) ++ after)) = true := by
        rw [coversFrom_cons]
        refine ⟨rfl, hsp, ?_⟩
        show coversFrom (start + span) b _ = true
        exact h7
      by_cases hls : s.start < start
      · rw [if_pos hls, List.cons_append, coversFrom_cons]
        refine ⟨hss, ?_, ?_⟩
        · show (1:Int) ≤ start - s.start
          omega
        · show coversFrom (a + (start - s.start)) b _ = true
          have hrw : a + (start - s.start) = start := by omega
          rw [hrw]
          exact hmid
      · rw [if_neg hls]
        simp only [List.nil_append]
        have hrw : a = start := by omega
        rw [hrw]
        exact hmid

theorem spliceGo_filter {b start span : Int} {tasks : List Task} :
    ∀ {L : List Block} {a : Int}, coversFrom a b L = true →
      a ≤ start → 1 ≤ span → start + span ≤ b →
      (spliceGo start span tasks L).filter (fun blk => decide (blk.start = start))
        = [Block.mk start span tasks] := by
  intro L
  induction L with
  | nil =>
    intro a h ha hsp hb
    rw [coversFrom_nil] at h
    omega
  | cons s rest ih =>
    intro a h ha hsp hb
    have h' := h
    rw [coversFrom_cons] at h
    obtain ⟨hss, hsps, hrest⟩ := h
    rw [spliceGo_cons]
    by_cases hc : s.start + s.span ≤ start ∨ s.start ≥ start + span
    · rw [if_pos hc]
      have hskip : s.start + s.span ≤ start := by
        rcases hc with hc | hc
        · exact hc
        · omega
      rw [List.filter_cons_of_neg]
      · exact ih hrest (by omega) hsp hb
      · simp only [decide_eq_true_iff]
        omega
    · rw [if_neg hc]
      push_neg at hc
      obtain ⟨consumed, m, after, rSpan, rTasks, h1, h2, h3, h4, h5, h6, h7⟩ :=
        scanToEnd_spec h' (by omega) hb
      simp only [h1]
      rw [List.filter_append]
      have hleft : (if s.start < start then [Block.mk s.start (start - s.start) s.tasks]
          else []).filter (fun blk => decide (blk.start = start)) = [] := by
        by_cases hls : s.start < start
        · rw [if_pos hls, List.filter_eq_nil_iff]
          intro blk hm
          rw [List.mem_singleton] at hm
          subst hm
          simp only [decide_eq_true_iff]
          show ¬ s.start = start
          omega
        · rw [if_neg hls]
          rfl
      rw [hleft, List.nil_append]
      rw [List.filter_cons_of_pos]
      · have htail : ((if rSpan > 0 then [Block.mk (start + span) rSpan rTasks] else [])
            ++ after).filter (fun blk => decide (blk.start = start)) = [] := by
          rw [List.filter_eq_nil_iff]
          intro blk hm
          simp only [decide_eq_true_iff]
          have hmem := covers_mem h7 blk hm
          omega
        rw [htail]
      · simp

theorem spliceGo_decomp {b start span : Int} {tasks : List Task} :
    ∀ {L : List Block} {a : Int}, coversFrom a b L = true →
      a ≤ start → 1 ≤ span → start + span ≤ b →
      SpliceDecomp L start span tasks (spliceGo start span tasks L) := by
  intro L
  induction L with
  | nil =>
    intro a h ha hsp hb
    rw [coversFrom_nil] at h
    omega
  | cons s rest ih =>
    intro a h ha hsp hb
    have h' := h
    rw [coversFrom_cons] at h
    obtain ⟨hss, hsps, hrest⟩ := h
    rw [spliceGo_cons]
    by_cases hc : s.start + s.span ≤ start ∨ s.start ≥ start + span
    · rw [if_pos hc]
      have hskip : s.start + s.span ≤ start := by
        rcases hc with hc | hc
        · exact hc
        · omega
      obtain ⟨pre, run, post, mid, e1, e2, p1, p2, p3, p4, p5, p6, p7⟩ :=
        ih hrest (by omega) hsp hb
      refine ⟨s :: pre, run, post, mid, ?_, ?_, ?_, p2, p3, p4, p5, p6, p7⟩
      · simp [e1]
      · simp [e2]
      · intro blk hm
        rcases List.mem_cons.mp hm with hm | hm
        · subst hm; exact hskip
        · exact p1 blk hm
    · rw [if_neg hc]
      push_neg at hc
      obtain ⟨consumed, m, after, rSpan, rTasks, h1, h2, h3, h4, h5, h6, h7⟩ :=
        scanToEnd_spec h' (by omega) hb
      simp only [h1]
      refine ⟨[], consumed ++ [m], after,
        (if s.start < start then [Block.mk s.start (start - s.start) s.tasks] else [])
          ++ Block.mk start span tasks ::
            (if rSpan > 0 then [Block.mk (start + span) rSpan rTasks] else []),
        ?_, ?_, by simp, ?_, ?_, by simp, ?_, ?_, ?_⟩
      · simp [h2]
      · simp
      · intro blk hm
        have hmm := covers_mem h7 blk (List.mem_append.mpr (Or.inr hm))
        omega
      · intro blk hm
        rw [h2] at h'
        obtain ⟨c, hc1, hc2⟩ := coversFrom_append.mp h'
        rcases List.mem_append.mp hm with hm | hm
        · have hend := h3 blk hm
          cases consumed with
          | nil => simp at hm
          | cons c0 ctail =>
            have h2' := h2
            simp only [List.cons_append] at h2'
            injection h2' with hA hB
            subst hA
            rcases List.mem_cons.mp hm with hm | hm
            · subst hm
              exact ⟨by omega, by omega⟩
            · have hcc := coversFrom_cons.mp hc1
              have hmm := covers_mem hcc.2.2 blk hm
              exact ⟨by omega, by omega⟩
        · rw [List.mem_singleton] at hm
          subst hm
          constructor
          · omega
          · omega
      · by_cases hls : s.start < start <;> by_cases hrs : rSpan > 0 <;>
          simp [hls, hrs]
      · by_cases hls : s.start < start <;> by_cases hrs : rSpan > 0 <;>
          simp [hls, hrs]
      · by_cases hls : s.start < start <;> by_cases hrs : rSpan > 0 <;>
          simp [hls, hrs]

theorem spliceGo_left_mem {b start span : Int} {tasks : List Task} :
    ∀ {L : List Block} {a : Int}, coversFrom a b L = true → a ≤ start → 1 ≤ span →
      ∀ f ∈ L, f.start < start → start < f.start + f.span →
      Block.mk f.start (start - f.start) f.tasks ∈ spliceGo start span tasks L := by
  intro L
  induction L with
  | nil => intro a _ _ _ f hf; simp at hf
  | cons s rest ih =>
    intro a h ha hsp f hf hf1 hf2
    rw [coversFrom_cons] at h
    obtain ⟨hss, hsps, hrest⟩ := h
    rw [spliceGo_cons]
    by_cases hc : s.start + s.span ≤ start ∨ s.start ≥ start + span
    · rw [if_pos hc]
      have hskip : s.start + s.span ≤ start := by
        rcases hc with hc | hc
        · exact hc
        · omega
      rcases List.mem_cons.mp hf with he | hmem
      · exfalso
        subst he
        omega
      · exact List.mem_cons_of_mem _ (ih hrest (by omega) hsp f hmem hf1 hf2)
    · rw [if_neg hc]
      push_neg at hc
      rcases List.mem_cons.mp hf with he | hmem
      · subst he
        rw [if_pos hf1]
        simp
      · exfalso
        have hmm := covers_mem hrest f hmem
        omega

theorem spliceGo_right_mem {b start span : Int} {tasks : List Task} :
    ∀ {L : List Block} {a : Int}, coversFrom a b L = true → a ≤ start → 1 ≤ span →
      ∀ m ∈ L, m.start < start + span → start + span < m.start + m.span →
      Block.mk (start + span) (m.start + m.span - (start + span)) m.tasks
        ∈ spliceGo start span tasks L := by
  intro L
  induction L with
  | nil => intro a _ _ _ m hm; simp at hm
  | cons s rest ih =>
    intro a h ha hsp m hm hm1 hm2
    have h' := h
    rw [coversFrom_cons] at h
    obtain ⟨hss, hsps, hrest⟩ := h
    rw [spliceGo_cons]
    by_cases hc : s.start + s.span ≤ start ∨ s.start ≥ start + span
    · rw [if_pos hc]
      have hskip : s.start + s.span ≤ start := by
        rcases hc with hc | hc
        · exact hc
        · omega
      rcases List.mem_cons.mp hm with he | hmem
      · exfalso
        subst he
        omega
      · exact List.mem_cons_of_mem _ (ih hrest (by omega) hsp m hmem hm1 hm2)
    · rw [if_neg hc]
      push_neg at hc
      obtain ⟨after, hscan⟩ := scanToEnd_right h' m hm hm1 hm2
      simp only [hscan]
      rw [if_pos (by omega : m.start + m.span - (start + span) > 0)]
      simp

theorem spliceGo_provenance {b start span : Int} {tasks : List Task} :
    ∀ {L : List Block} {a : Int}, coversFrom a b L = true →
      a ≤ start → 1 ≤ span → start + span ≤ b →
      ∀ blk ∈ spliceGo start span tasks L, ∀ t ∈ blk.tasks,
        t ∈ tasks ∨ ∃ src ∈ L, t ∈ src.tasks ∧
          ¬(start ≤ src.start ∧ src.start + src.span ≤ start + span) := by
  intro L
  induction L with
  | nil => intro a _ _ _ _ blk hblk; simp [spliceGo] at hblk
  | cons s rest ih =>
    intro a h ha hsp hb blk hblk t ht
    have h' := h
    rw [coversFrom_cons] at h
    obtain ⟨hss, hsps, hrest⟩ := h
    rw [spliceGo_cons] at hblk
    by_cases hc : s.start + s.span ≤ start ∨ s.start ≥ start + span
    · rw [if_pos hc] at hblk
      have hskip : s.start + s.span ≤ start := by
        rcases hc with hc | hc
        · exact hc
        · omega
      rcases List.mem_cons.mp hblk with he | hmem
      · subst he
        right
        exact ⟨blk, List.mem_cons_self _ _, ht, by omega⟩
      · rcases ih hrest (by omega) hsp hb blk hmem t ht with hcase | ⟨src, hsrc, htt, hni⟩
        · exact Or.inl hcase
        · exact Or.inr ⟨src, List.mem_cons_of_mem _ hsrc, htt, hni⟩
    · rw [if_neg hc] at hblk
      push_neg at hc
      obtain ⟨consumed, m, after, rSpan, rTasks, h1, h2, h3, h4, h5, h6, h7⟩ :=
        scanToEnd_spec h' (by omega) hb
      simp only [h1] at hblk
      rcases List.mem_append.mp hblk with hL | hR
      · by_cases hls : s.start < start
        · rw [if_pos hls] at hL
          rw [List.mem_singleton] at hL
          subst hL
          right
          exact ⟨s, List.mem_cons_self _ _, ht, by omega⟩
        · rw [if_neg hls] at hL
          simp at hL
      · rcases List.mem_cons.mp hR with he | hR2
        · subst he
          exact Or.inl ht
        · rcases List.mem_append.mp hR2 with hRem | hAfter
          · rcases h6 with ⟨hpos, hsp2, htk, hlt⟩ | ⟨h0, htk, heq⟩
            · rw [if_pos (by omega : rSpan > 0)] at hRem
              rw [List.mem_singleton] at hRem
              subst hRem
              right
              refine ⟨m, ?_, ?_, by omega⟩
              · rw [h2]
                exact List.mem_append.mpr (Or.inr (List.mem_cons_self _ _))
              · rw [htk] at ht
                exact ht
            · rw [if_neg (by omega : ¬ rSpan > 0)] at hRem
              simp at hRem
          · right
            have hmm := covers_mem h7 blk (List.mem_append.mpr (Or.inr hAfter))
            refine ⟨blk, ?_, ht, by omega⟩
            rw [h2]
            exact List.mem_append.mpr
              (Or.inr (List.mem_cons_of_mem _ hAfter))

theorem mergeSlots_cons_succ (x : Block) (t : List Block) (n : Nat) :
    mergeSlots (x :: t) (n + 1) = x :: mergeSlots t n := by
  unfold mergeSlots
  cases h1 : t.get? n with
  | none =>
    cases h2 : t.get? (n + 1) with
    | none => simp only [List.get?_cons_succ, h1, h2]
    | some b2 => simp only [List.get?_cons_succ, h1, h2]
  | some a2 =>
    cases h2 : t.get? (n + 1) with
    | none => simp only [List.get?_cons_succ, h1, h2]
    | some b2 =>
      simp only [List.get?_cons_succ, h1, h2]
      by_cases hadj : a2.start + a2.span ≠ b2.start
      · rw [if_pos hadj, if_pos hadj]
      · rw [if_neg hadj, if_neg hadj]
        rw [List.take_succ_cons]
        rfl

theorem mergeSlots_covers {b : Int} :
    ∀ (i : Nat) {L : List Block} {a : Int}, coversFrom a b L = true →
      coversFrom a b (mergeSlots L i) = true := by
  intro i
  induction i with
  | zero =>
    intro L a h
    cases L with
    | nil => exact h
    | cons x t =>
      cases t with
      | nil => exact h
      | cons y t2 =>
        have h' := h
        rw [coversFrom_cons] at h
        obtain ⟨hx, hxs, hrest⟩ := h
        have hy := coversFrom_cons.mp hrest
        show coversFrom a b
          (if x.start + x.span ≠ y.start then x :: y :: t2
           else Block.mk x.start (x.span + y.span) (x.tasks ++ y.tasks) :: t2) = true
        rw [if_neg (by omega : ¬ x.start + x.span ≠ y.start)]
        rw [coversFrom_cons]
        refine ⟨hx, ?_, ?_⟩
        · show (1:Int) ≤ x.span + y.span
          have := hy.2.1
          omega
        · show coversFrom (a + (x.span + y.span)) b t2 = true
          have hrw : a + (x.span + y.span) = a + x.span + y.span := by omega
          rw [hrw]
          exact hy.2.2
  | succ n ih =>
    intro L a h
    cases L with
    | nil => exact h
    | cons x t =>
      rw [mergeSlots_cons_succ]
      rw [coversFrom_cons] at h ⊢
      exact ⟨h.1, h.2.1, ih h.2.2⟩

theorem unmergeSlot_cons_succ (x : Block) (t : List Block) (n : Nat) :
    unmergeSlot (x :: t) (n + 1) = x :: unmergeSlot t n := by
  unfold unmergeSlot
  cases h1 : t.get? n with
  | none => simp only [List.get?_cons_succ, h1]
  | some s2 =>
    simp only [List.get?_cons_succ, h1]
    by_cases hsp : s2.span ≤ 60
    · rw [if_pos hsp, if_pos hsp]
    · rw [if_neg hsp, if_neg hsp]
      rw [List.take_succ_cons]
      rfl

theorem unmergeSlot_covers {b : Int} :
    ∀ (i : Nat) {L : List Block} {a : Int}, coversFrom a b L = true →
      coversFrom a b (unmergeSlot L i) = true := by
  intro i
  induction i with
  | zero =>
    intro L a h
    cases L with
    | nil => exact h
    | cons x t =>
      have h' := h
      rw [coversFrom_cons] at h
      obtain ⟨hx, hxs, hrest⟩ := h
      show coversFrom a b
        (if x.span ≤ 60 then x :: t
         else Block.mk x.start 60 x.tasks ::
           Block.mk (x.start + 60) (x.span - 60) [] :: t) = true
      by_cases hsp : x.span ≤ 60
      · rw [if_pos hsp]
        exact h'
      · rw [if_neg hsp]
        rw [coversFrom_cons]
        refine ⟨hx, ?_, ?_⟩
        · show (1:Int) ≤ 60
          omega
        · rw [coversFrom_cons]
          refine ⟨?_, ?_, ?_⟩
          · show x.start + 60 = a + 60
            omega
          · show (1:Int) ≤ x.span - 60
            omega
          · show coversFrom (a + 60 + (x.span - 60)) b t = true
            have hrw : a + 60 + (x.span - 60) = a + x.span := by omega
            rw [hrw]
            exact hrest
  | succ n ih =>
    intro L a h
    cases L with
    | nil => exact h
    | cons x t =>
      rw [unmergeSlot_cons_succ]
      rw [coversFrom_cons] at h ⊢
      exact ⟨h.1, h.2.1, ih h.2.2⟩

theorem updateBlockTasks_cons_succ (x : Block) (t : List Block) (n : Nat)
    (f : List Task → List Task) :
    updateBlockTasks (x :: t) (n + 1) f = x :: updateBlockTasks t n f := by
  unfold updateBlockTasks
  cases h1 : t.get? n with
  | none => simp only [List.get?_cons_succ, h1]
  | some blk => simp only [List.get?_cons_succ, h1, List.set_cons_succ]

theorem updateBlockTasks_covers {b : Int} :
    ∀ (i : Nat) (f : List Task → List Task) {L : List Block} {a : Int},
      coversFrom a b L = true → coversFrom a b (updateBlockTasks L i f) = true := by
  intro i
  induction i with
  | zero =>
    intro f L a h
    cases L with
    | nil => exact h
    | cons x t =>
      rw [coversFrom_cons] at h
      show coversFrom a b (Block.mk x.start x.span (f x.tasks) :: t) = true
      rw [coversFrom_cons]
      exact ⟨h.1, h.2.1, h.2.2⟩
  | succ n ih =>
    intro f L a h
    cases L with
    | nil => exact h
    | cons x t =>
      rw [updateBlockTasks_cons_succ]
      rw [coversFrom_cons] at h ⊢
      exact ⟨h.1, h.2.1, ih f h.2.2⟩

theorem appendToMatching_covers {b : Int} {σ : Nat → Nat} {start span : Int}
    {tasks : List Task} :
    ∀ {L : List Block} {c : Nat} {a : Int}, coversFrom a b L = true →
      coversFrom a b (appendToMatching σ start span tasks c L).1 = true := by
  intro L
  induction L with
  | nil => intro c a h; exact h
  | cons blk rest ih =>
    intro c a h
    rw [coversFrom_cons] at h
    unfold appendToMatching
    by_cases hcnd : blk.start = start ∧ blk.span = span
    · rw [if_pos hcnd]
      show coversFrom a b
        (Block.mk blk.start blk.span (blk.tasks ++ (makeCopies σ c tasks).1) ::
          (appendToMatching σ start span tasks (makeCopies σ c tasks).2 rest).1) = true
      rw [coversFrom_cons]
      exact ⟨h.1, h.2.1, ih h.2.2⟩
    · rw [if_neg hcnd]
      show coversFrom a b
        (blk :: (appendToMatching σ start span tasks c rest).1) = true
      rw [coversFrom_cons]
      exact ⟨h.1, h.2.1, ih h.2.2⟩

theorem applyAllGo_cons_replace (σ : Nat → Nat) (start span : Int) (tasks : List Task)
    (c : Nat) (day : List Block) (rest : List (List Block)) :
    applyAllGo σ start span tasks "replace" c (day :: rest) =
      replaceRangeWithSingleBlock day start span (makeCopies σ c tasks).1
        :: applyAllGo σ start span tasks "replace" (makeCopies σ c tasks).2 rest := rfl

theorem applyAllGo_cons_append (σ : Nat → Nat) (start span : Int) (tasks : List Task)
    (c : Nat) (day : List Block) (rest : List (List Block)) :
    applyAllGo σ start span tasks "append" c (day :: rest) =
      (appendToMatching σ start span tasks c
          (replaceRangeWithSingleBlock day start span [])).1
        :: applyAllGo σ start span tasks "append"
            (appendToMatching σ start span tasks c
              (replaceRangeWithSingleBlock day start span [])).2 rest := rfl

theorem applyAllGo_cons_other (σ : Nat → Nat) (start span : Int) (tasks : List Task)
    (mode : String) (c : Nat) (day : List Block) (rest : List (List Block))
    (h1 : ¬ mode = "replace") (h2 : ¬ mode = "append") :
    applyAllGo σ start span tasks mode c (day :: rest) =
      replaceRangeWithSingleBlock day start span []
        :: applyAllGo σ start span tasks mode c rest := by
  conv_lhs => unfold applyAllGo
  simp only [if_neg h1, if_neg h2]

theorem applyAllGo_covers {σ : Nat → Nat} {start span : Int} {tasks : List Task}
    {mode : String} (h0 : 0 ≤ start) (hsp : 1 ≤ span) (h3 : start + span ≤ 1440) :
    ∀ {days : List (List Block)} {c : Nat},
      (∀ L ∈ days, coversFrom 0 1440 L = true) →
      ∀ L ∈ applyAllGo σ start span tasks mode c days, coversFrom 0 1440 L = true := by
  intro days
  induction days with
  | nil =>
    intro c _ L hL
    simp [applyAllGo] at hL
  | cons day rest ih =>
    intro c hv L hL
    have hday : coversFrom 0 1440 day = true := hv day (List.mem_cons_self _ _)
    have hvrest : ∀ M ∈ rest, coversFrom 0 1440 M = true :=
      fun M hM => hv M (List.mem_cons_of_mem _ hM)
    by_cases hr : mode = "replace"
    · subst hr
      rw [applyAllGo_cons_replace] at hL
      rcases List.mem_cons.mp hL with he | hm
      · subst he
        exact spliceGo_covers hday h0 hsp h3
      · exact ih hvrest L hm
    · by_cases hap : mode = "append"
      · subst hap
        rw [applyAllGo_cons_append] at hL
        rcases List.mem_cons.mp hL with he | hm
        · subst he
          exact appendToMatching_covers (spliceGo_covers hday h0 hsp h3)
        · exact ih hvrest L hm
      · rw [applyAllGo_cons_other σ start span tasks mode c day rest hr hap] at hL
        rcases List.mem_cons.mp hL with he | hm
        · subst he
          exact spliceGo_covers hday h0 hsp h3
        · exact ih hvrest L hm

theorem getD_of_get? {sched : List (List Block)} {d : Nat} {day : List Block}
    (hd : sched.get? d = some day) : sched.getD d [] = day := by
  rw [List.getD_eq_getD_get?, hd]
  rfl

theorem applyBlockToAllDays_covers {σ : Nat → Nat} {sched : List (List Block)} {d i : Nat}
    {mode : String} (hv : ∀ L ∈ sched, coversFrom 0 1440 L = true) :
    ∀ L ∈ applyBlockToAllDays σ sched d i mode, coversFrom 0 1440 L = true := by
  unfold applyBlockToAllDays
  cases hsrc : (sched.getD d []).get? i with
  | none => exact hv
  | some src =>
    have hmem : src ∈ sched.getD d [] := List.get?_mem hsrc
    have hday : coversFrom 0 1440 (sched.getD d []) = true := by
      cases hd : sched.get? d with
      | none =>
        exfalso
        have : sched.getD d [] = [] := by
          rw [List.getD_eq_getD_get?, hd]
          rfl
        rw [this] at hsrc
        simp at hsrc
      | some day =>
        rw [getD_of_get? hd]
        exact hv day (List.get?_mem hd)
    have hrange := covers_mem hday src hmem
    exact applyAllGo_covers hrange.1 hrange.2.1 hrange.2.2 hv

theorem updateDay_covers {sched : List (List Block)} {d : Nat} {f : List Block → List Block}
    (hv : ∀ L ∈ sched, coversFrom 0 1440 L = true)
    (hf : ∀ L, coversFrom 0 1440 L = true → coversFrom 0 1440 (f L) = true) :
    ∀ L ∈ updateDay sched d f, coversFrom 0 1440 L = true := by
  unfold updateDay
  cases hd : sched.get? d with
  | none => exact hv
  | some day =>
    intro L hL
    rcases List.mem_or_eq_of_mem_set hL with hL | hL
    · exact hv L hL
    · subst hL
      exact hf day (hv day (List.get?_mem hd))

theorem defaultDay_covers : coversFrom 0 1440 defaultDay = true := by decide

theorem defaultSchedule_covers : ∀ L ∈ defaultSchedule, coversFrom 0 1440 L = true := by
  intro L hL
  rw [List.eq_of_mem_replicate hL]
  exact defaultDay_covers

theorem execOp_covers {σ : Nat → Nat} {sched : List (List Block)} {op : Op}
    (hv : ∀ L ∈ sched, coversFrom 0 1440 L = true) :
    ∀ L ∈ execOp σ sched op, coversFrom 0 1440 L = true := by
  cases op with
  | merge d i => exact updateDay_covers hv (fun L h => mergeSlots_covers i h)
  | unmerge d i => exact updateDay_covers hv (fun L h => unmergeSlot_covers i h)
  | splice d start span tasks =>
    simp only [execOp]
    by_cases hr : 0 ≤ start ∧ 1 ≤ span ∧ start + span ≤ 1440
    · rw [if_pos hr]
      exact updateDay_covers hv (fun L h => spliceGo_covers h hr.1 hr.2.1 hr.2.2)
    · rw [if_neg hr]
      exact hv
  | applyAll d i mode => exact applyBlockToAllDays_covers hv
  | add d i t => exact updateDay_covers hv (fun L h => updateBlockTasks_covers i _ h)
  | upd d i tid pch => exact updateDay_covers hv (fun L h => updateBlockTasks_covers i _ h)
  | rem d i tid => exact updateDay_covers hv (fun L h => updateBlockTasks_covers i _ h)
  | reset d => exact updateDay_covers hv (fun L h => defaultDay_covers)

/-- C1: for every sequence of engine operations (merge, unmerge, range splice
with `0 ≤ start`, `span ≥ 1`, `start + span ≤ 1440`, cross-day propagation,
task add/update/remove, reset) starting from the default week of 24 one-hour
blocks per day, every day's partition satisfies the four invariants: blocks
sorted ascending by start, contiguous, covering exactly `[0, 1440)`, and
every span at least 1. -/
theorem ops_preserve_invariants (σ : Nat → Nat) (ops : List Op) :
    ∀ slots ∈ runOps σ ops, Invariants slots := by
  have key : ∀ (l : List Op) (sched : List (List Block)),
      (∀ L ∈ sched, coversFrom 0 1440 L = true) →
      ∀ L ∈ List.foldl (execOp σ) sched l, coversFrom 0 1440 L = true := by
    intro l
    induction l with
    | nil => intro sched hv; exact hv
    | cons op rest ih =>
      intro sched hv
      exact ih (execOp σ sched op) (execOp_covers hv)
  intro slots hm
  exact invariants_iff.mpr (key ops defaultSchedule defaultSchedule_covers slots hm)

/-- C2: splicing a valid range `[start, start + span)` into a valid partition
yields a partition that satisfies all four invariants, whose only block
starting at `start` is exactly the new block `{start, span, tasks}`, and whose
shape is: untouched prefix, then the 1-to-3 replacement blocks (optional left
remainder, the new block, optional right remainder) standing for the nonempty
run of overlapped blocks, then the untouched suffix. -/
theorem splice_exact (slots : List Block) (start span : Int) (tasks : List Task)
    (hinv : Invariants slots) (h0 : 0 ≤ start) (_h1 : start < 1440)
    (h2 : 1 ≤ span) (h3 : start + span ≤ 1440) :
    Invariants (replaceRangeWithSingleBlock slots start span tasks) ∧
    (replaceRangeWithSingleBlock slots start span tasks).filter
        (fun blk => decide (blk.start = start)) = [Block.mk start span tasks] ∧
    SpliceDecomp slots start span tasks
      (replaceRangeWithSingleBlock slots start span tasks) := by
  have hc := invariants_iff.mp hinv
  exact ⟨invariants_iff.mpr (spliceGo_covers hc h0 h2 h3),
    spliceGo_filter hc h0 h2 h3, spliceGo_decomp hc h0 h2 h3⟩

/-- Witness for C2 at a concrete input: splicing `[570, 600)` into the
default day. -/
theorem splice_exact_witness :
    Invariants (replaceRangeWithSingleBlock defaultDay 570 30 []) ∧
    (replaceRangeWithSingleBlock defaultDay 570 30 []).filter
        (fun blk => decide (blk.start = 570)) = [Block.mk 570 30 []] ∧
    SpliceDecomp defaultDay 570 30 []
      (replaceRangeWithSingleBlock defaultDay 570 30 []) :=
  splice_exact defaultDay 570 30 [] (invariants_iff.mpr (by decide)) (by decide)
    (by decide) (by decide) (by decide)

/-- C3: task redistribution of the splice on a valid partition.  A first
overlapping block strictly straddling `start` leaves a left remainder
carrying its full task list; a last overlapping block strictly straddling
`start + span` leaves a right remainder carrying its full task list; every
task of the result stems from `newTasks` or from an original block that is
not strictly interior to the spliced range, so the tasks of strictly interior
blocks are gone.  On the concrete blocks `[0,60) [60,120)` (task `"A"`)
`[120,180)`, splicing `[30, 150)` with `["X"]` yields `[0,30)` empty,
`[30,150)` with `["X"]`, `[150,180)` empty, and `"A"` appears nowhere. -/
theorem splice_task_redistribution (slots : List Block) (start span : Int)
    (tasks : List Task) (hinv : Invariants slots) (h0 : 0 ≤ start)
    (h2 : 1 ≤ span) (h3 : start + span ≤ 1440) :
    (∀ f ∈ slots, f.start < start → start < f.start + f.span →
      Block.mk f.start (start - f.start) f.tasks
        ∈ replaceRangeWithSingleBlock slots start span tasks) ∧
    (∀ m ∈ slots, m.start < start + span → start + span < m.start + m.span →
      Block.mk (start + span) (m.start + m.span - (start + span)) m.tasks
        ∈ replaceRangeWithSingleBlock slots start span tasks) ∧
    (∀ blk ∈ replaceRangeWithSingleBlock slots start span tasks, ∀ t ∈ blk.tasks,
      t ∈ tasks ∨ ∃ src ∈ slots, t ∈ src.tasks ∧
        ¬(start ≤ src.start ∧ src.start + src.span ≤ start + span)) ∧
    (replaceRangeWithSingleBlock
        [Block.mk 0 60 [], Block.mk 60 60 [Task.mk 1 "A" false], Block.mk 120 60 []]
        30 120 [Task.mk 2 "X" false]
      = [Block.mk 0 30 [], Block.mk 30 120 [Task.mk 2 "X" false], Block.mk 150 30 []] ∧
     ∀ blk ∈ replaceRangeWithSingleBlock
        [Block.mk 0 60 [], Block.mk 60 60 [Task.mk 1 "A" false], Block.mk 120 60 []]
        30 120 [Task.mk 2 "X" false], Task.mk 1 "A" false ∉ blk.tasks) := by
  have hc := invariants_iff.mp hinv
  exact ⟨spliceGo_left_mem hc h0 h2, spliceGo_right_mem hc h0 h2,
    spliceGo_provenance hc h0 h2 h3, by decide⟩

/-- Witness for C3 at a concrete input: splicing `[30, 150)` into the default
day leaves the left remainder `[0, 30)` and the right remainder `[150, 180)`. -/
theorem splice_task_redistribution_witness :
    Block.mk 0 30 [] ∈ replaceRangeWithSingleBlock defaultDay 30 120 [Task.mk 2 "X" false] ∧
    Block.mk 150 30 [] ∈ replaceRangeWithSingleBlock defaultDay 30 120 [Task.mk 2 "X" false] :=
  ⟨(splice_task_redistribution defaultDay 30 120 [Task.mk 2 "X" false]
      (invariants_iff.mpr (by decide)) (by decide) (by decide) (by decide)).1
      (Block.mk 0 60 []) (by decide) (by decide) (by decide),
   (splice_task_redistribution defaultDay 30 120 [Task.mk 2 "X" false]
      (invariants_iff.mpr (by decide)) (by decide) (by decide) (by decide)).2.1
      (Block.mk 120 60 []) (by decide) (by decide) (by decide)⟩

theorem covers_adjacent {b : Int} :
    ∀ {L : List Block} {i : Nat} {a : Int}, coversFrom a b L = true →
      ∀ x y, L.get? i = some x → L.get? (i + 1) = some y →
        x.start + x.span = y.start := by
  intro L
  induction L with
  | nil => intro i a _ x y hx; simp at hx
  | cons z rest ih =>
    intro i a h x y hx hy
    rw [coversFrom_cons] at h
    cases i with
    | zero =>
      simp only [List.get?_cons_zero, Option.some.injEq] at hx
      cases rest with
      | nil => simp at hy
      | cons w rest2 =>
        simp only [List.get?_cons_succ, List.get?_cons_zero, Option.some.injEq] at hy
        have hw := (coversFrom_cons.mp h.2.2).1
        subst hx
        subst hy
        omega
    | succ n =>
      simp only [List.get?_cons_succ] at hx hy
      exact ih h.2.2 x y hx hy

/-- C7: merging block `i` of a valid partition with its successor replaces
the two originals by `{start: b[i].start, span: b[i].span + b[i+1].span,
tasks: b[i].tasks ++ b[i+1].tasks}` (left-block-first concatenation); when
`i` is the last index (or beyond) the merge is a no-op, and a non-adjacent
pair (impossible under the invariants) is also a no-op — never an error. -/
theorem merge_behavior (slots : List Block) (i : Nat) :
    (Invariants slots → i + 1 < slots.length →
      ∃ x y, slots.get? i = some x ∧ slots.get? (i + 1) = some y ∧
        mergeSlots slots i =
          slots.take i ++ Block.mk x.start (x.span + y.span) (x.tasks ++ y.tasks)
            :: slots.drop (i + 2)) ∧
    (slots.length ≤ i + 1 → mergeSlots slots i = slots) ∧
    (∀ x y, slots.get? i = some x → slots.get? (i + 1) = some y →
      x.start + x.span ≠ y.start → mergeSlots slots i = slots) := by
  refine ⟨?_, ?_, ?_⟩
  · intro hinv hlen
    have hxe : slots.get? i = some (slots.get ⟨i, by omega⟩) :=
      List.get?_eq_get (by omega)
    have hye : slots.get? (i + 1) = some (slots.get ⟨i + 1, hlen⟩) :=
      List.get?_eq_get hlen
    have hadj := covers_adjacent (invariants_iff.mp hinv) _ _ hxe hye
    refine ⟨_, _, hxe, hye, ?_⟩
    unfold mergeSlots
    rw [hxe, hye]
    simp only [if_neg (show ¬ (slots.get ⟨i, by omega⟩).start + (slots.get ⟨i, by omega⟩).span ≠
      (slots.get ⟨i + 1, hlen⟩).start by omega)]
  · intro hlen
    have hye : slots.get? (i + 1) = none := by
      rw [List.get?_eq_none]
      exact hlen
    unfold mergeSlots
    rw [hye]
    cases slots.get? i <;> rfl
  · intro x y hx hy hne
    unfold mergeSlots
    rw [hx, hy]
    simp only [if_pos hne]

/-- Witness for C7: merging the first two blocks of the default day, and the
no-op on the last index. -/
theorem merge_behavior_witness :
    (∃ x y, defaultDay.get? 0 = some x ∧ defaultDay.get? 1 = some y ∧
      mergeSlots defaultDay 0 =
        defaultDay.take 0 ++ Block.mk x.start (x.span + y.span) (x.tasks ++ y.tasks)
          :: defaultDay.drop 2) ∧
    mergeSlots defaultDay 23 = defaultDay :=
  ⟨(merge_behavior defaultDay 0).1 (invariants_iff.mpr (by decide)) (by decide),
   (merge_behavior defaultDay 23).2.1 (by decide)⟩

/-- C8: splitting is not the inverse of merging.  `unmergeSlot` on a block
with span > 60 yields a 60-minute head carrying a copy of all the tasks and a
span-60 remainder with an empty task list; a block with span ≤ 60 is left
unchanged; merging three adjacent one-hour blocks and then splitting yields a
60-minute head and a 120-minute remainder, not the original three blocks. -/
theorem split_not_inverse (slots : List Block) (i : Nat) :
    (∀ s, slots.get? i = some s → 60 < s.span →
      unmergeSlot slots i = slots.take i ++ Block.mk s.start 60 s.tasks ::
        Block.mk (s.start + 60) (s.span - 60) [] :: slots.drop (i + 1)) ∧
    (∀ s, slots.get? i = some s → s.span ≤ 60 → unmergeSlot slots i = slots) ∧
    (unmergeSlot (mergeSlots (mergeSlots threeHourly 0) 0) 0
        = [Block.mk 0 60 [], Block.mk 60 120 []] ∧
      unmergeSlot (mergeSlots (mergeSlots threeHourly 0) 0) 0 ≠ threeHourly) := by
  refine ⟨?_, ?_, by decide⟩
  · intro s hs hsp
    unfold unmergeSlot
    rw [hs]
    simp only [if_neg (show ¬ s.span ≤ 60 by omega)]
  · intro s hs hsp
    unfold unmergeSlot
    rw [hs]
    simp only [if_pos hsp]

/-- Witness for C8: splitting a single 180-minute block. -/
theorem split_not_inverse_witness :
    unmergeSlot [Block.mk 0 180 [Task.mk 7 "w" false]] 0
      = [Block.mk 0 60 [Task.mk 7 "w" false], Block.mk 60 120 []] := by
  have := (split_not_inverse [Block.mk 0 180 [Task.mk 7 "w" false]] 0).1
    (Block.mk 0 180 [Task.mk 7 "w" false]) rfl (by decide)
  simpa using this

theorem addCustomBlock_parts (slots : List Block) (p0 p1 : String)
    (rest : List String) (raw : String) (hraw : ¬ raw = "")
    (h : splitSeps raw = p0 :: p1 :: rest) :
    addCustomBlock slots raw =
      match parseTimeToMinutes p0, parseTimeToMinutes p1 with
      | some startMin, some endMin =>
        if endMin ≤ startMin then slots
        else replaceRangeWithSingleBlock slots (max 0 (min (MINS_IN_DAY - 1) startMin))
          (max 1 (min MINS_IN_DAY endMin) - max 0 (min (MINS_IN_DAY - 1) startMin)) []
      | _, _ => slots := by
  unfold addCustomBlock
  rw [if_neg hraw, h]

theorem addCustomBlock_short (slots : List Block) (raw : String)
    (hraw : ¬ raw = "") (h : (splitSeps raw).length < 2) :
    addCustomBlock slots raw = slots := by
  unfold addCustomBlock
  rw [if_neg hraw]
  cases hsplit : splitSeps raw with
  | nil => rfl
  | cons p0 tail =>
    cases tail with
    | nil => rfl
    | cons p1 tail2 =>
      exfalso
      rw [hsplit] at h
      simp at h
      omega

/-- C9: the custom-range operation never mutates the day unless both sides of
the free-text range parse (non-NaN) and the parsed end minute is strictly
after the parsed start minute; in exactly that case it performs the splice
(with the clamps the source applies). -/
theorem custom_range_guard (slots : List Block) (raw : String) :
    (∀ p0 p1 rest, splitSeps raw = p0 :: p1 :: rest →
      ((parseTimeToMinutes p0 = none ∨ parseTimeToMinutes p1 = none) →
        addCustomBlock slots raw = slots) ∧
      (∀ sm em, parseTimeToMinutes p0 = some sm → parseTimeToMinutes p1 = some em →
        ((em ≤ sm → addCustomBlock slots raw = slots) ∧
          (sm < em → addCustomBlock slots raw =
            replaceRangeWithSingleBlock slots (max 0 (min (MINS_IN_DAY - 1) sm))
              (max 1 (min MINS_IN_DAY em) - max 0 (min (MINS_IN_DAY - 1) sm)) [])))) ∧
    ((splitSeps raw).length < 2 → addCustomBlock slots raw = slots) := by
  by_cases hraw : raw = ""
  · subst hraw
    constructor
    · intro p0 p1 rest h
      exfalso
      have hsplit : splitSeps "" = [""] := by decide
      rw [hsplit] at h
      simp at h
    · intro _
      rfl
  · constructor
    · intro p0 p1 rest h
      rw [addCustomBlock_parts slots p0 p1 rest raw hraw h]
      constructor
      · intro hor
        cases hp0 : parseTimeToMinutes p0 with
        | none => rfl
        | some sm =>
          cases hp1 : parseTimeToMinutes p1 with
          | none => rfl
          | some em =>
            exfalso
            rcases hor with hor | hor
            · rw [hp0] at hor; exact Option.noConfusion hor
            · rw [hp1] at hor; exact Option.noConfusion hor
      · intro sm em hsm hem
        rw [hsm, hem]
        constructor
        · intro hle
          show (if em ≤ sm then slots
            else replaceRangeWithSingleBlock slots (max 0 (min (MINS_IN_DAY - 1) sm))
              (max 1 (min MINS_IN_DAY em) - max 0 (min (MINS_IN_DAY - 1) sm)) []) = slots
          rw [if_pos hle]
        · intro hlt
          show (if em ≤ sm then slots
            else replaceRangeWithSingleBlock slots (max 0 (min (MINS_IN_DAY - 1) sm))
              (max 1 (min MINS_IN_DAY em) - max 0 (min (MINS_IN_DAY - 1) sm)) []) = _
          rw [if_neg (by omega)]
    · exact addCustomBlock_short slots raw hraw

/-- Witness for C9: `"10 - 9"` (end before start) leaves the default day
unchanged; `"9:30 - 10"` performs the splice of `[570, 600)`. -/
theorem custom_range_guard_witness :
    addCustomBlock defaultDay "10 - 9" = defaultDay ∧
    addCustomBlock defaultDay "9:30 - 10" =
      replaceRangeWithSingleBlock defaultDay (max 0 (min (MINS_IN_DAY - 1) 570))
        (max 1 (min MINS_IN_DAY 600) - max 0 (min (MINS_IN_DAY - 1) 570)) [] :=
  ⟨(((custom_range_guard defaultDay "10 - 9").1 "10 " " 9" [] (by decide)).2
      600 540 (by decide) (by decide)).1 (by decide),
   (((custom_range_guard defaultDay "9:30 - 10").1 "9:30 " " 10" [] (by decide)).2
      570 600 (by decide) (by decide)).2 (by decide)⟩

/-- C10: when the source day has no block at `blockIndex`, `applyBlockToAllDays`
returns the schedule completely unchanged for all seven days. -/
theorem apply_all_out_of_range (σ : Nat → Nat) (sched : List (List Block))
    (d i : Nat) (mode : String) (h : (sched.getD d []).get? i = none) :
    applyBlockToAllDays σ sched d i mode = sched := by
  unfold applyBlockToAllDays
  rw [h]

/-- Witness for C10: index 24 is out of range on a default day. -/
theorem apply_all_out_of_range_witness :
    applyBlockToAllDays (fun n => n) defaultSchedule 0 24 "replace" = defaultSchedule :=
  apply_all_out_of_range (fun n => n) defaultSchedule 0 24 "replace" (by decide)

/-- C4: at the failing input, append-mode propagation does not preserve the
tasks a day already had at the exact target range.  Tuesday's `[90,150)`
block held `"call mom"`; Monday's source block `[90,150)` holds `"gym"`;
after `applyBlockToAllDays` in append mode Tuesday's block at that range
carries only the fresh copy of `"gym"` — `"call mom"` is gone (the splice
first replaces the block with an empty task list, and the append step then
appends the copies to that empty list).  Wednesday, with no such exact block
before, ends up with only the fresh copy, as the claim says. -/
theorem append_mode_drops_existing_tasks :
    (applyBlockToAllDays (fun n => 100 + n) weekFI 1 1 "append").getD 2 []
      = [Block.mk 0 90 [], Block.mk 90 60 [Task.mk 102 "gym" false],
         Block.mk 150 1290 []] ∧
    (∀ blk ∈ (applyBlockToAllDays (fun n => 100 + n) weekFI 1 1 "append").getD 2 [],
      ∀ t ∈ blk.tasks, t.text ≠ "call mom") ∧
    ((applyBlockToAllDays (fun n => 100 + n) weekFI 1 1 "append").getD 3 []).filter
        (fun blk => decide (blk.start = 90))
      = [Block.mk 90 60 [Task.mk 103 "gym" false]] := by
  refine ⟨by decide, by decide, by decide⟩

/-- C5 counterexample: a stored snapshot that `JSON.parse` rejects makes the
loader propagate the parse error instead of falling back to the default
schedule — the initializer has no try/catch. -/
theorem load_corrupt_throws :
    loadSchedule corruptParse (some "not json")
        = Except.error "SyntaxError: Unexpected token o in JSON" ∧
    loadSchedule corruptParse (some "not json") ≠ Except.ok defaultSchedule := by
  constructor
  · rfl
  · intro h
    have h2 : (Except.error "SyntaxError: Unexpected token o in JSON" :
        Except String (List (List Block))) = Except.ok defaultSchedule := h
    exact Except.noConfusion h2

/-- C5 (amended): a missing stored value — or the empty string, which is
falsy — yields the default schedule of seven days of 24 hourly blocks
`{start: 60·h, span: 60, tasks: []}` without error; any other stored value
is handed to `JSON.parse` and its outcome, including a thrown parse error,
is returned to the caller. -/
theorem load_fallback (parse : String → Except String (List (List Block)))
    (saved : Option String) :
    (saved = none → loadSchedule parse saved = Except.ok defaultSchedule) ∧
    (saved = some "" → loadSchedule parse saved = Except.ok defaultSchedule) ∧
    (∀ str, saved = some str → str ≠ "" → loadSchedule parse saved = parse str) ∧
    defaultSchedule =
      List.replicate 7 ((List.range 24).map fun h => Block.mk (60 * (h : Int)) 60 []) := by
  refine ⟨?_, ?_, ?_, by decide⟩
  · intro h; subst h; rfl
  · intro h; subst h; rfl
  · intro str h hne
    subst h
    show (if str = "" then Except.ok defaultSchedule else parse str) = parse str
    rw [if_neg hne]

/-- Witness for C5's amended statement: the missing-value fallback. -/
theorem load_fallback_witness :
    loadSchedule corruptParse none = Except.ok defaultSchedule :=
  (load_fallback corruptParse none).1 rfl

theorem makeCopies_snd {σ : Nat → Nat} :
    ∀ (ts : List Task) (c : Nat), (makeCopies σ c ts).2 = c + ts.length := by
  intro ts
  induction ts with
  | nil => intro c; rfl
  | cons t ts ih =>
    intro c
    show (makeCopies σ (c + 1) ts).2 = c + (ts.length + 1)
    rw [ih]
    omega

theorem makeCopies_map_text {σ : Nat → Nat} :
    ∀ (ts : List Task) (c : Nat),
      (makeCopies σ c ts).1.map Task.text = ts.map Task.text := by
  intro ts
  induction ts with
  | nil => intro c; rfl
  | cons t ts ih =>
    intro c
    show t.text :: (makeCopies σ (c + 1) ts).1.map Task.text = t.text :: ts.map Task.text
    rw [ih]

theorem makeCopies_map_done {σ : Nat → Nat} :
    ∀ (ts : List Task) (c : Nat),
      (makeCopies σ c ts).1.map Task.done = ts.map Task.done := by
  intro ts
  induction ts with
  | nil => intro c; rfl
  | cons t ts ih =>
    intro c
    show t.done :: (makeCopies σ (c + 1) ts).1.map Task.done = t.done :: ts.map Task.done
    rw [ih]

theorem makeCopies_mem_id {σ : Nat → Nat} :
    ∀ (ts : List Task) (c : Nat) (t' : Task), t' ∈ (makeCopies σ c ts).1 →
      ∃ j, j < ts.length ∧ t'.id = σ (c + j) := by
  intro ts
  induction ts with
  | nil => intro c t' h; simp [makeCopies] at h
  | cons t ts ih =>
    intro c t' h
    rcases List.mem_cons.mp h with he | hm
    · refine ⟨0, Nat.succ_pos ts.length, ?_⟩
      rw [he]
      rfl
    · obtain ⟨j, hj, hid⟩ := ih (c + 1) t' hm
      refine ⟨j + 1, Nat.succ_lt_succ hj, ?_⟩
      rw [hid]
      congr 1
      omega

theorem applyAllGo_replace_length (σ : Nat → Nat) (start span : Int) (tasks : List Task) :
    ∀ (days : List (List Block)) (c : Nat),
      (applyAllGo σ start span tasks "replace" c days).length = days.length := by
  intro days
  induction days with
  | nil => intro c; rfl
  | cons day rest ih =>
    intro c
    rw [applyAllGo_cons_replace]
    show (applyAllGo σ start span tasks "replace" (makeCopies σ c tasks).2 rest).length + 1
      = rest.length + 1
    rw [ih]

theorem applyAllGo_replace_get (σ : Nat → Nat) (start span : Int) (tasks : List Task) :
    ∀ (days : List (List Block)) (c : Nat) (k : Nat), k < days.length →
      (applyAllGo σ start span tasks "replace" c days).get? k =
        some (replaceRangeWithSingleBlock (days.getD k []) start span
          (makeCopies σ (c + k * tasks.length) tasks).1) := by
  intro days
  induction days with
  | nil => intro c k hk; simp at hk
  | cons day rest ih =>
    intro c k hk
    rw [applyAllGo_cons_replace]
    cases k with
    | zero =>
      rw [List.get?_cons_zero]
      rw [show c + 0 * tasks.length = c by ring]
      rfl
    | succ k2 =>
      rw [List.get?_cons_succ]
      rw [ih (makeCopies σ c tasks).2 k2 (by simpa using hk)]
      rw [makeCopies_snd]
      rw [show c + tasks.length + k2 * tasks.length = c + (k2 + 1) * tasks.length by ring]
      rfl

/-- C6: after replace-mode propagation from the source block at `blockIndex`
of the selected day, every day of the schedule has exactly one block at the
source start, carrying the source span and fresh copies of the source tasks;
the copies preserve text and done, and — the id supply `σ` drawing pairwise
distinct values, which models the random generator — the ids on any two
different days are pairwise distinct, so the days own independent task
identities. -/
theorem replace_mode_fresh_copies (σ : Nat → Nat) (hσ : Function.Injective σ)
    (sched : List (List Block)) (d i : Nat)
    (hv : ∀ L ∈ sched, coversFrom 0 1440 L = true)
    (src : Block) (hsrc : (sched.getD d []).get? i = some src) :
    ((applyBlockToAllDays σ sched d i "replace").length = sched.length) ∧
    (∀ k, k < sched.length →
      ((applyBlockToAllDays σ sched d i "replace").getD k []).filter
          (fun blk => decide (blk.start = src.start)) =
        [Block.mk src.start src.span
          (makeCopies σ (k * src.tasks.length) src.tasks).1]) ∧
    (∀ c, (makeCopies σ c src.tasks).1.map Task.text = src.tasks.map Task.text ∧
          (makeCopies σ c src.tasks).1.map Task.done = src.tasks.map Task.done) ∧
    (∀ k j, k < sched.length → j < sched.length → k ≠ j →
      ∀ t ∈ (makeCopies σ (k * src.tasks.length) src.tasks).1,
      ∀ u ∈ (makeCopies σ (j * src.tasks.length) src.tasks).1, t.id ≠ u.id) := by
  have hab : applyBlockToAllDays σ sched d i "replace"
      = applyAllGo σ src.start src.span src.tasks "replace" 0 sched := by
    unfold applyBlockToAllDays
    rw [hsrc]
  have hsrcday : coversFrom 0 1440 (sched.getD d []) = true := by
    cases hd : sched.get? d with
    | none =>
      exfalso
      have he : sched.getD d [] = [] := by
        rw [List.getD_eq_getD_get?, hd]
        rfl
      rw [he] at hsrc
      simp at hsrc
    | some day =>
      rw [getD_of_get? hd]
      exact hv day (List.get?_mem hd)
  have hrange := covers_mem hsrcday src (List.get?_mem hsrc)
  refine ⟨by rw [hab]; exact applyAllGo_replace_length σ src.start src.span src.tasks sched 0,
    ?_, ?_, ?_⟩
  · intro k hk
    have hkday : sched.get? k = some (sched.get ⟨k, hk⟩) := List.get?_eq_get hk
    have hdayv : coversFrom 0 1440 (sched.getD k []) = true := by
      rw [getD_of_get? hkday]
      exact hv _ (List.get?_mem hkday)
    have hget := applyAllGo_replace_get σ src.start src.span src.tasks sched 0 k hk
    rw [Nat.zero_add] at hget
    rw [hab, List.getD_eq_getD_get?, hget]
    show (replaceRangeWithSingleBlock (sched.getD k []) src.start src.span
        (makeCopies σ (k * src.tasks.length) src.tasks).1).filter
        (fun blk => decide (blk.start = src.start)) = _
    exact spliceGo_filter hdayv hrange.1 hrange.2.1 hrange.2.2
  · intro c
    exact ⟨makeCopies_map_text src.tasks c, makeCopies_map_done src.tasks c⟩
  · intro k j hk hj hne t ht u hu
    obtain ⟨jt, hjt, hidt⟩ := makeCopies_mem_id src.tasks _ t ht
    obtain ⟨ju, hju, hidu⟩ := makeCopies_mem_id src.tasks _ u hu
    intro heq
    have heq2 : k * src.tasks.length + jt = j * src.tasks.length + ju := by
      apply hσ
      rw [← hidt, ← hidu, heq]
    rcases Nat.lt_or_ge k j with hkj | hkj
    · have h1 : (k + 1) * src.tasks.length ≤ j * src.tasks.length :=
        Nat.mul_le_mul_right _ hkj
      have h2 : k * src.tasks.length + jt < (k + 1) * src.tasks.length := by
        rw [Nat.succ_mul]
        omega
      omega
    · have hkj2 : j + 1 ≤ k := by omega
      have h1 : (j + 1) * src.tasks.length ≤ k * src.tasks.length :=
        Nat.mul_le_mul_right _ hkj2
      have h2 : j * src.tasks.length + ju < (j + 1) * src.tasks.length := by
        rw [Nat.succ_mul]
        omega
      omega

/-- Witness for C6 on a one-block week. -/
theorem replace_mode_fresh_copies_witness :
    (applyBlockToAllDays (fun n => n) weekOneBlock 0 0 "replace").length
        = weekOneBlock.length ∧
    ((applyBlockToAllDays (fun n => n) weekOneBlock 0 0 "replace").getD 2 []).filter
        (fun blk => decide (blk.start = 0)) =
      [Block.mk 0 1440 (makeCopies (fun n => n) 2 [Task.mk 5 "gym" false]).1] := by
  have h := replace_mode_fresh_copies (fun n => n) (fun a b hab => hab) weekOneBlock 0 0
    (by decide) (Block.mk 0 1440 [Task.mk 5 "gym" false]) (by decide)
  exact ⟨h.1, h.2.1 2 (by decide)⟩

/-- Witness for C1: a concrete sequence of operations (merge, splice,
cross-day propagation, unmerge, reset) run from the default week. -/
theorem ops_preserve_invariants_witness :
    Invariants ((runOps (fun n => n)
      [Op.merge 0 0, Op.splice 1 30 120 [], Op.applyAll 1 1 "replace",
        Op.unmerge 0 0, Op.reset 2]).getD 1 []) :=
  ops_preserve_invariants (fun n => n)
    [Op.merge 0 0, Op.splice 1 30 120 [], Op.applyAll 1 1 "replace",
      Op.unmerge 0 0, Op.reset 2]
    ((runOps (fun n => n)
      [Op.merge 0 0, Op.splice 1 30 120 [], Op.applyAll 1 1 "replace",
        Op.unmerge 0 0, Op.reset 2]).getD 1 []) (by decide)

end Planner
